import Mathlib

/-!
# Verification of the URL-shortener rate limiter and LRU cache

Shallow embedding of `src/url_shortener/rate_limiter.py` and
`src/url_shortener/storage.py`.  Python floats are modelled as rationals
(`ℚ`), the monotonic clock as an explicit `now : ℚ` argument threaded
through every operation, Python dicts / `OrderedDict`s as association
lists (most-recently-used at the tail, matching `OrderedDict` order),
and raised exceptions as `Except String`.
-/

/-- Association-list lookup, modelling Python `d.get(k)` / `k in d`. -/
def dictGet {α : Type} (k : String) : List (String × α) → Option α
  | [] => none
  | (a, v) :: tl => if a = k then some v else dictGet k tl

/-- State of `TokenBucket` (fields `_capacity`, `_refill_rate`, `_tokens`,
`_last_refill` of the Python class). -/
structure TokenBucket where
  capacity : ℚ
  refill_rate : ℚ
  tokens : ℚ
  last_refill : ℚ
  deriving Repr, DecidableEq

/-- `TokenBucket.__init__`: validates `capacity > 0` and `refill_rate > 0`
(raising `ValueError` otherwise) and starts the bucket full, stamped with
the current monotonic time `now`. -/
def TokenBucket.init (capacity refill_rate now : ℚ) : Except String TokenBucket :=
  if capacity ≤ 0 then .error "capacity must be > 0"
  else if refill_rate ≤ 0 then .error "refill_rate must be > 0"
  else .ok ⟨capacity, refill_rate, capacity, now⟩

/-- `TokenBucket._refill`: add `elapsed * refill_rate` tokens, capped at
`capacity`, and advance `_last_refill` to `now`. -/
def TokenBucket.refill (b : TokenBucket) (now : ℚ) : TokenBucket :=
  let elapsed := now - b.last_refill
  let added := elapsed * b.refill_rate
  { b with tokens := min b.capacity (b.tokens + added), last_refill := now }

/-- `TokenBucket.consume`: refill, then grant (subtracting `cost`) iff
`tokens >= cost`.  Returns the decision and the post-state. -/
def TokenBucket.consume (b : TokenBucket) (cost now : ℚ) : Bool × TokenBucket :=
  let b' := b.refill now
  if b'.tokens ≥ cost then (true, { b' with tokens := b'.tokens - cost })
  else (false, b')

/-- The read-only `tokens` property: refills, then returns the count. -/
def TokenBucket.tokensView (b : TokenBucket) (now : ℚ) : ℚ × TokenBucket :=
  let b' := b.refill now
  (b'.tokens, b')

/-- State after `n` back-to-back `consume()` calls at the default unit
cost, with no time elapsing between calls (each call happens at the
bucket's own `_last_refill` instant). -/
def TokenBucket.consumeN (b : TokenBucket) : ℕ → TokenBucket
  | 0 => b
  | n + 1 =>
    let b' := b.consumeN n
    (b'.consume 1 b'.last_refill).2

/-- Decision of the `n`-th (0-indexed) back-to-back unit `consume()` call. -/
def TokenBucket.callResult (b : TokenBucket) (n : ℕ) : Bool :=
  ((b.consumeN n).consume 1 (b.consumeN n).last_refill).1

lemma TokenBucket.refill_self (cap rate tk t : ℚ) :
    TokenBucket.refill ⟨cap, rate, tk, t⟩ t = ⟨cap, rate, min cap tk, t⟩ := by
  simp [TokenBucket.refill]

lemma TokenBucket.consumeN_fresh (cap rate t : ℚ) (k : ℕ) (hk : (k : ℚ) ≤ cap) :
    TokenBucket.consumeN ⟨cap, rate, cap, t⟩ k = ⟨cap, rate, cap - k, t⟩ := by
  induction k with
  | zero => simp [TokenBucket.consumeN]
  | succ n ih =>
    have hn : (n : ℚ) ≤ cap := by
      have : (n : ℚ) ≤ (n : ℚ) + 1 := by linarith
      calc (n : ℚ) ≤ (n : ℚ) + 1 := this
        _ = ((n + 1 : ℕ) : ℚ) := by push_cast; ring
        _ ≤ cap := hk
    have hsub : cap - (n : ℚ) ≤ cap := by linarith [Nat.cast_nonneg (α := ℚ) n]
    have hone : (1 : ℚ) ≤ cap - n := by
      have : ((n + 1 : ℕ) : ℚ) = (n : ℚ) + 1 := by push_cast; ring
      linarith [hk.trans_eq' this.symm, this ▸ hk]
    rw [TokenBucket.consumeN, ih hn]
    simp only [TokenBucket.consume, TokenBucket.refill_self, min_eq_right hsub, if_pos hone]
    simp only [TokenBucket.mk.injEq, true_and, and_true]
    push_cast
    ring

/-- C8: `TokenBucket` construction fails iff `capacity <= 0` or
`refill_rate <= 0`; on success the bucket starts full (`tokens =
capacity`), with the given parameters recorded. -/
theorem tokenBucket_init_validation (cap rate t : ℚ) :
    ((∃ e, TokenBucket.init cap rate t = .error e) ↔ (cap ≤ 0 ∨ rate ≤ 0)) ∧
    (∀ b, TokenBucket.init cap rate t = .ok b →
      b.tokens = cap ∧ b.capacity = cap ∧ b.refill_rate = rate ∧ b.last_refill = t) := by
  constructor
  · constructor
    · rintro ⟨e, he⟩
      by_contra hcon
      push_neg at hcon
      obtain ⟨h1, h2⟩ := hcon
      simp [TokenBucket.init, h1.not_le, h2.not_le] at he
    · intro h
      rcases h with h | h
      · exact ⟨"capacity must be > 0", by simp [TokenBucket.init, h]⟩
      · refine ⟨if cap ≤ 0 then "capacity must be > 0" else "refill_rate must be > 0", ?_⟩
        by_cases hc : cap ≤ 0 <;> simp [TokenBucket.init, hc, h]
  · intro b hb
    simp only [TokenBucket.init] at hb
    by_cases hc : cap ≤ 0
    · simp [hc] at hb
    · by_cases hr : rate ≤ 0
      · simp [hc, hr] at hb
      · simp [hc, hr] at hb
        subst hb
        exact ⟨rfl, rfl, rfl, rfl⟩

/-- Witness for C8 at `capacity = 3`, `refill_rate = 1`, `t = 0` (success,
starts full) and `capacity = -1` (error). -/
theorem tokenBucket_init_validation_witness :
    (TokenBucket.init 3 1 0 = .ok ⟨3, 1, 3, 0⟩ → ((3 : ℚ) = 3 ∧ (3 : ℚ) = 3 ∧ (1 : ℚ) = 1 ∧ (0 : ℚ) = 0)) ∧
    (∃ e, TokenBucket.init (-1) 1 0 = .error e) := by
  constructor
  · intro h
    have := (tokenBucket_init_validation 3 1 0).2 ⟨3, 1, 3, 0⟩ h
    exact this
  · exact (tokenBucket_init_validation (-1) 1 0).1.mpr (Or.inl (by norm_num))

/-- C10: a cost strictly greater than `capacity` is always denied,
however much time has elapsed, because the refill step caps `tokens` at
`capacity` before the availability check. -/
theorem oversized_cost_always_denied (b : TokenBucket) (cost now : ℚ)
    (h : b.capacity < cost) :
    (b.consume cost now).1 = false := by
  simp only [TokenBucket.consume, TokenBucket.refill]
  have hle : min b.capacity (b.tokens + (now - b.last_refill) * b.refill_rate) ≤ b.capacity :=
    min_le_left _ _
  rw [if_neg]
  intro hge
  exact absurd (le_trans hge hle) (not_le.mpr h)

/-- Witness for C10: a full bucket of capacity 3, after 100 seconds of
refill, still denies a request of cost 5. -/
theorem oversized_cost_always_denied_witness :
    (TokenBucket.consume ⟨3, 1, 3, 0⟩ 5 100).1 = false :=
  oversized_cost_always_denied ⟨3, 1, 3, 0⟩ 5 100 (by norm_num)

/-- Well-formedness of a bucket: positive configuration and the data-model
invariant `0 <= tokens <= capacity`. -/
def TokenBucket.WF (b : TokenBucket) : Prop :=
  0 < b.capacity ∧ 0 < b.refill_rate ∧ 0 ≤ b.tokens ∧ b.tokens ≤ b.capacity

lemma TokenBucket.refill_WF (b : TokenBucket) (now : ℚ) (hb : b.WF)
    (hnow : b.last_refill ≤ now) : (b.refill now).WF := by
  obtain ⟨hc, hr, h0, hcap⟩ := hb
  refine ⟨hc, hr, ?_, ?_⟩
  · simp only [TokenBucket.refill]
    have hadd : 0 ≤ (now - b.last_refill) * b.refill_rate :=
      mul_nonneg (by linarith) (le_of_lt hr)
    exact le_min (le_of_lt hc) (by linarith)
  · simp only [TokenBucket.refill]
    exact min_le_left _ _

/-- C2 (amended): the invariant `0 <= tokens <= capacity` holds after
construction and is preserved by `consume` for every *nonnegative* cost,
and by the `tokens` snapshot, for any monotone elapsed time and any
(positive) refill rate. -/
theorem tokenBucket_invariant_nonneg_cost (cap rate t cost now : ℚ) (b : TokenBucket) :
    (TokenBucket.init cap rate t = .ok b → b.WF) ∧
    (b.WF → b.last_refill ≤ now → 0 ≤ cost → (b.consume cost now).2.WF) ∧
    (b.WF → b.last_refill ≤ now → (b.tokensView now).2.WF) := by
  refine ⟨?_, ?_, ?_⟩
  · intro h
    by_cases hc : cap ≤ 0
    · simp [TokenBucket.init, hc] at h
    · by_cases hr : rate ≤ 0
      · simp [TokenBucket.init, hc, hr] at h
      · simp only [TokenBucket.init, if_neg hc, if_neg hr, Except.ok.injEq] at h
        subst h
        exact ⟨not_le.mp hc, not_le.mp hr, le_of_lt (not_le.mp hc), le_refl _⟩
  · intro hb hnow hcost
    have hWF := b.refill_WF now hb hnow
    obtain ⟨hc, hr, h0, hcap⟩ := hWF
    simp only [TokenBucket.consume]
    by_cases hge : (b.refill now).tokens ≥ cost
    · rw [if_pos hge]
      exact ⟨hc, hr, by simpa using sub_nonneg.mpr hge, by dsimp; linarith⟩
    · rw [if_neg hge]
      exact ⟨hc, hr, h0, hcap⟩
  · intro hb hnow
    exact b.refill_WF now hb hnow

/-- Counterexample to C2 as stated: a well-formed full bucket
`⟨3, 1, 3, 0⟩` satisfies the invariant, but `consume(-5)` (a legal call:
the code places no constraint on the cost argument) drives `tokens` to 8,
which exceeds `capacity = 3`. -/
theorem tokenBucket_invariant_negcost_counterexample :
    ((⟨3, 1, 3, 0⟩ : TokenBucket).WF) ∧
    (TokenBucket.consume ⟨3, 1, 3, 0⟩ (-5) 0).2.tokens = 8 ∧
    ¬ ((TokenBucket.consume ⟨3, 1, 3, 0⟩ (-5) 0).2.tokens ≤
        (TokenBucket.consume ⟨3, 1, 3, 0⟩ (-5) 0).2.capacity) := by
  refine ⟨⟨by norm_num, by norm_num, by norm_num, by norm_num⟩, ?_, ?_⟩ <;>
    norm_num [TokenBucket.consume, TokenBucket.refill, min_def]

/-- Witness for the amended C2: the invariant survives a unit-cost consume
on the fresh bucket `⟨3, 1, 3, 0⟩` evaluated at time 0. -/
theorem tokenBucket_invariant_nonneg_cost_witness :
    (TokenBucket.consume ⟨3, 1, 3, 0⟩ 1 0).2.WF :=
  (tokenBucket_invariant_nonneg_cost 3 1 0 1 0 ⟨3, 1, 3, 0⟩).2.1
    ⟨by norm_num, by norm_num, by norm_num, by norm_num⟩ (by norm_num) (by norm_num)

/-- C3: a denied `consume` leaves the state exactly as the refill step
left it (tokens unchanged apart from refill); and on an empty bucket with
no elapsed time, every one of the `n` repeated unit-cost calls is denied,
the state never changes, and `tokens` stays at 0 (never below). -/
theorem tokenBucket_denial_preserves_tokens (b : TokenBucket) (cost now : ℚ) (n : ℕ) :
    ((b.consume cost now).1 = false → (b.consume cost now).2 = b.refill now) ∧
    (0 ≤ b.capacity → b.tokens = 0 →
      b.consumeN n = b ∧ b.callResult n = false ∧ (b.consumeN n).tokens = 0) := by
  constructor
  · intro h
    simp only [TokenBucket.consume] at h ⊢
    by_cases hge : (b.refill now).tokens ≥ cost
    · rw [if_pos hge] at h
      simp at h
    · rw [if_neg hge]
  · intro hcap h0
    have hstep : b.consume 1 b.last_refill = (false, b) := by
      obtain ⟨cap, rate, tk, t⟩ := b
      simp only at h0 hcap
      subst h0
      simp only [TokenBucket.consume, TokenBucket.refill_self]
      rw [min_eq_right hcap]
      norm_num
    have hN : b.consumeN n = b := by
      induction n with
      | zero => rfl
      | succ m ih => rw [TokenBucket.consumeN, ih, hstep]
    refine ⟨hN, ?_, by rw [hN, h0]⟩
    rw [TokenBucket.callResult, hN, hstep]

/-- Witness for C3 on the empty bucket `⟨3, 1, 0, 0⟩`: the denied call
returns the refilled state, and two repeated calls change nothing. -/
theorem tokenBucket_denial_preserves_tokens_witness :
    ((TokenBucket.consume ⟨3, 1, 0, 0⟩ 1 0).1 = false →
      (TokenBucket.consume ⟨3, 1, 0, 0⟩ 1 0).2 = TokenBucket.refill ⟨3, 1, 0, 0⟩ 0) ∧
    (TokenBucket.consumeN ⟨3, 1, 0, 0⟩ 2 = ⟨3, 1, 0, 0⟩ ∧
      TokenBucket.callResult ⟨3, 1, 0, 0⟩ 2 = false ∧
      (TokenBucket.consumeN ⟨3, 1, 0, 0⟩ 2).tokens = 0) := by
  have h := tokenBucket_denial_preserves_tokens ⟨3, 1, 0, 0⟩ 1 0 2
  exact ⟨h.1, h.2 (by norm_num) (by norm_num)⟩

/-- C1: a freshly constructed bucket (any `capacity > 0`, `refillRate > 0`)
grants exactly `⌊capacity⌋` consecutive unit-cost `consume()` calls with no
time elapsed, and denies the next; in particular `TokenBucket(3, 1)`
yields `true, true, true, false`. -/
theorem tokenBucket_fresh_consumes_floor_capacity (cap rate t : ℚ) (b : TokenBucket)
    (h : TokenBucket.init cap rate t = .ok b) :
    (∀ k, k < (⌊cap⌋).toNat → b.callResult k = true) ∧
    b.callResult (⌊cap⌋).toNat = false ∧
    (TokenBucket.callResult ⟨3, 1, 3, 0⟩ 0 = true ∧
     TokenBucket.callResult ⟨3, 1, 3, 0⟩ 1 = true ∧
     TokenBucket.callResult ⟨3, 1, 3, 0⟩ 2 = true ∧
     TokenBucket.callResult ⟨3, 1, 3, 0⟩ 3 = false) := by
  have hparse : ¬ cap ≤ 0 ∧ ¬ rate ≤ 0 ∧ b = ⟨cap, rate, cap, t⟩ := by
    by_cases hc : cap ≤ 0
    · simp [TokenBucket.init, hc] at h
    · by_cases hr : rate ≤ 0
      · simp [TokenBucket.init, hc, hr] at h
      · simp only [TokenBucket.init, if_neg hc, if_neg hr, Except.ok.injEq] at h
        exact ⟨hc, hr, h.symm⟩
  obtain ⟨hc, hr, hb⟩ := hparse
  have hcpos : (0 : ℚ) < cap := not_le.mp hc
  have hfloor0 : (0 : ℤ) ≤ ⌊cap⌋ := Int.floor_nonneg.mpr (le_of_lt hcpos)
  subst hb
  refine ⟨?_, ?_, ?_⟩
  · intro k hk
    have hkZ : (k : ℤ) < ⌊cap⌋ := Int.lt_toNat.mp hk
    have hk1 : ((k : ℤ) + 1 : ℚ) ≤ cap := by
      have : (k : ℤ) + 1 ≤ ⌊cap⌋ := hkZ
      exact_mod_cast (Int.le_floor.mp this)
    have hkQ : (k : ℚ) ≤ cap := by push_cast at hk1 ⊢; linarith
    have hone : (1 : ℚ) ≤ cap - k := by push_cast at hk1; linarith
    rw [TokenBucket.callResult, TokenBucket.consumeN_fresh cap rate t k hkQ]
    simp only [TokenBucket.consume, TokenBucket.refill_self]
    rw [min_eq_right (by linarith [Nat.cast_nonneg (α := ℚ) k])]
    rw [if_pos hone]
  · set n := (⌊cap⌋).toNat with hn
    have hnZ : (n : ℤ) = ⌊cap⌋ := Int.toNat_of_nonneg hfloor0
    have hnQ : (n : ℚ) ≤ cap := by
      have := Int.floor_le cap
      rw [← hnZ] at this
      exact_mod_cast this
    have hlt : cap - n < 1 := by
      have := Int.lt_floor_add_one cap
      rw [← hnZ] at this
      push_cast at this
      linarith
    rw [TokenBucket.callResult, TokenBucket.consumeN_fresh cap rate t n hnQ]
    simp only [TokenBucket.consume, TokenBucket.refill_self]
    rw [min_eq_right (by linarith [Nat.cast_nonneg (α := ℚ) n])]
    rw [if_neg (by intro hge; simp at hge; linarith)]
  · norm_num [TokenBucket.callResult, TokenBucket.consumeN, TokenBucket.consume,
      TokenBucket.refill, min_def]

/-- Witness for C1 at `capacity = 3`, `refillRate = 1`: the fourth call
(index `⌊3⌋.toNat = 3`) is denied and all earlier ones granted. -/
theorem tokenBucket_fresh_consumes_floor_capacity_witness :
    TokenBucket.callResult ⟨3, 1, 3, 0⟩ 0 = true ∧
    TokenBucket.callResult ⟨3, 1, 3, 0⟩ 1 = true ∧
    TokenBucket.callResult ⟨3, 1, 3, 0⟩ 2 = true ∧
    TokenBucket.callResult ⟨3, 1, 3, 0⟩ ((⌊(3 : ℚ)⌋).toNat) = false := by
  have h := tokenBucket_fresh_consumes_floor_capacity 3 1 0 ⟨3, 1, 3, 0⟩ (by
    simp [TokenBucket.init]; norm_num)
  have h3 : (⌊(3 : ℚ)⌋).toNat = 3 := by decide
  exact ⟨h.2.2.1, h.2.2.2.1, h.2.2.2.2.1, by rw [h3]; exact h.2.2.2.2.2⟩

/-! ## The LRU cache of `storage.py` (`_url_cache`, an `OrderedDict`) -/

/-- The `OrderedDict` backing the cache: oldest entry first,
most-recently-used last, keys unique. -/
abbrev Cache := List (String × String)

/-- Remove every binding of `k` (Python `del d[k]` / the removal half of
`move_to_end`). -/
def eraseKey {α : Type} (k : String) (c : List (String × α)) : List (String × α) :=
  c.filter (fun p => p.1 != k)

/-- `_cache_get`: on a hit, move the entry to the most-recently-used end
and return its value; on a miss return `None` and leave the cache alone. -/
def cacheGet (k : String) (c : Cache) : Option String × Cache :=
  match dictGet k c with
  | none => (none, c)
  | some v => (some v, eraseKey k c ++ [(k, v)])

/-- `_cache_put`: insert or refresh `k -> v` at the most-recently-used
end, then drop the least-recently-used entry if capacity is exceeded. -/
def cachePut (cap : ℕ) (k v : String) (c : Cache) : Cache :=
  let c1 := eraseKey k c ++ [(k, v)]
  if cap < c1.length then c1.tail else c1

/-- `_cache_invalidate`: remove `k` if present, no-op otherwise. -/
def cacheInvalidate (k : String) (c : Cache) : Cache :=
  eraseKey k c

lemma mem_eraseKey {α : Type} (k : String) (c : List (String × α)) (p : String × α) :
    p ∈ eraseKey k c ↔ p ∈ c ∧ p.1 ≠ k := by
  simp [eraseKey, List.mem_filter]

lemma dictGet_eraseKey_self {α : Type} (k : String) (c : List (String × α)) :
    dictGet k (eraseKey k c) = none := by
  induction c with
  | nil => rfl
  | cons hd tl ih =>
    by_cases h : hd.1 = k
    · simpa [eraseKey, h] using ih
    · obtain ⟨a, v⟩ := hd
      simp only at h
      simpa [eraseKey, dictGet, h] using ih

lemma eraseKey_of_dictGet_none {α : Type} (k : String) (c : List (String × α))
    (h : dictGet k c = none) : eraseKey k c = c := by
  induction c with
  | nil => rfl
  | cons hd tl ih =>
    obtain ⟨a, v⟩ := hd
    by_cases ha : a = k
    · simp [dictGet, ha] at h
    · simp only [dictGet, if_neg ha] at h
      have hstep : eraseKey k ((a, v) :: tl) = (a, v) :: eraseKey k tl := by
        simp [eraseKey, ha]
      rw [hstep, ih h]

lemma dictGet_append_of_none {α : Type} (k : String) (l₁ l₂ : List (String × α))
    (h : dictGet k l₁ = none) : dictGet k (l₁ ++ l₂) = dictGet k l₂ := by
  induction l₁ with
  | nil => rfl
  | cons hd tl ih =>
    obtain ⟨a, v⟩ := hd
    by_cases ha : a = k
    · simp [dictGet, ha] at h
    · simp only [dictGet, if_neg ha] at h
      simpa [dictGet, ha] using ih h

lemma dictGet_append_of_some {α : Type} (k : String) (l₁ l₂ : List (String × α)) (v : α)
    (h : dictGet k l₁ = some v) : dictGet k (l₁ ++ l₂) = some v := by
  induction l₁ with
  | nil => simp [dictGet] at h
  | cons hd tl ih =>
    obtain ⟨a, w⟩ := hd
    by_cases ha : a = k
    · simp only [dictGet, if_pos ha] at h ⊢
      simpa [dictGet, ha] using h
    · simp only [dictGet, if_neg ha] at h ⊢
      simpa [dictGet, ha] using ih h

lemma mem_of_dictGet {α : Type} (k : String) (l : List (String × α)) (v : α)
    (h : dictGet k l = some v) : (k, v) ∈ l := by
  induction l with
  | nil => simp [dictGet] at h
  | cons hd tl ih =>
    obtain ⟨a, w⟩ := hd
    by_cases ha : a = k
    · simp only [dictGet, if_pos ha] at h
      injection h with hv
      subst ha hv
      exact List.mem_cons_self _ _
    · simp only [dictGet, if_neg ha] at h
      exact List.mem_cons_of_mem _ (ih h)

lemma length_eraseKey_le {α : Type} (k : String) (c : List (String × α)) :
    (eraseKey k c).length ≤ c.length :=
  List.length_filter_le _ _

lemma length_eraseKey_lt {α : Type} (k : String) (c : List (String × α))
    (h : (dictGet k c).isSome) : (eraseKey k c).length < c.length := by
  induction c with
  | nil => simp [dictGet] at h
  | cons hd tl ih =>
    obtain ⟨a, v⟩ := hd
    by_cases ha : a = k
    · simp only [eraseKey, List.filter]
      have : ((a, v).1 != k) = false := by simp [ha]
      rw [this]
      exact Nat.lt_succ_of_le (List.length_filter_le _ _)
    · simp only [dictGet, if_neg ha] at h
      simp only [eraseKey, List.filter]
      have : ((a, v).1 != k) = true := by simp [ha]
      rw [this]
      simpa using ih h

/-- C4: `put` on a present key refreshes its value and recency without
eviction; `put` of a fresh key into a full cache evicts exactly the
least-recently-touched (front) entry; every operation leaves at most
`capacity` entries; and the concrete capacity-2 scenario
`put a, put b, get a, put c` evicts `b`, leaving `a` and `c`. -/
theorem lru_cache_put_get_spec (cap : ℕ) (c : Cache) (k v : String) :
    ((dictGet k c).isSome → c.length ≤ cap →
      cachePut cap k v c = eraseKey k c ++ [(k, v)] ∧
      dictGet k (cachePut cap k v c) = some v) ∧
    (dictGet k c = none → c.length = cap → 0 < cap →
      cachePut cap k v c = c.tail ++ [(k, v)]) ∧
    (c.length ≤ cap →
      (cachePut cap k v c).length ≤ cap ∧
      ((cacheGet k c).2).length ≤ cap ∧
      (cacheInvalidate k c).length ≤ cap) ∧
    (cachePut 2 "c" "3" ((cacheGet "a" (cachePut 2 "b" "2" (cachePut 2 "a" "1" ([] : Cache)))).2)
        = [("a", "1"), ("c", "3")] ∧
      (cacheGet "a" (cachePut 2 "b" "2" (cachePut 2 "a" "1" ([] : Cache)))).1 = some "1") := by
  refine ⟨?_, ?_, ?_, by decide, by decide⟩
  · intro hsome hlen
    have hlt : (eraseKey k c).length < c.length := length_eraseKey_lt k c hsome
    have hlen1 : (eraseKey k c ++ [(k, v)]).length ≤ cap := by
      simp only [List.length_append, List.length_singleton]
      omega
    have hput : cachePut cap k v c = eraseKey k c ++ [(k, v)] := by
      simp only [cachePut]
      rw [if_neg (by omega)]
    refine ⟨hput, ?_⟩
    rw [hput, dictGet_append_of_none k _ _ (dictGet_eraseKey_self k c)]
    simp [dictGet]
  · intro hnone hfull hpos
    have herase : eraseKey k c = c := eraseKey_of_dictGet_none k c hnone
    simp only [cachePut, herase]
    rw [if_pos (by simp only [List.length_append, List.length_singleton]; omega)]
    match c, hfull with
    | (a :: tl), _ => simp
    | [], hfull => simp at hfull; omega
  · intro hlen
    refine ⟨?_, ?_, ?_⟩
    · simp only [cachePut]
      have h1 : (eraseKey k c ++ [(k, v)]).length ≤ c.length + 1 := by
        simp only [List.length_append, List.length_singleton]
        have := length_eraseKey_le k c
        omega
      by_cases hcase : cap < (eraseKey k c ++ [(k, v)]).length
      · rw [if_pos hcase]
        simp only [List.length_tail]
        omega
      · rw [if_neg hcase]
        omega
    · simp only [cacheGet]
      match hget : dictGet k c with
      | none => simpa using hlen
      | some w =>
        have hlt : (eraseKey k c).length < c.length :=
          length_eraseKey_lt k c (by simp [hget])
        simp only [List.length_append, List.length_singleton]
        omega
    · simp only [cacheInvalidate]
      have := length_eraseKey_le k c
      omega

/-- Witness for C4: refreshing a present key, evicting from the full
capacity-2 cache `[(b, 2), (a, 1)]`, and the bounded sizes, all at
concrete inputs. -/
theorem lru_cache_put_get_spec_witness :
    cachePut 2 "c" "3" [("b", "2"), ("a", "1")] = [("a", "1"), ("c", "3")] ∧
    cachePut 2 "a" "9" [("b", "2"), ("a", "1")] = [("b", "2"), ("a", "9")] ∧
    (cachePut 2 "c" "3" [("b", "2"), ("a", "1")]).length ≤ 2 := by
  have hev := (lru_cache_put_get_spec 2 [("b", "2"), ("a", "1")] "c" "3").2.1
    (by decide) (by decide) (by decide)
  have hre := ((lru_cache_put_get_spec 2 [("b", "2"), ("a", "1")] "a" "9").1
    (by decide) (by decide)).1
  have hbd := ((lru_cache_put_get_spec 2 [("b", "2"), ("a", "1")] "c" "3").2.2.1
    (by decide)).1
  exact ⟨hev.trans (by decide), hre.trans (by decide), hbd⟩

/-! ## The authoritative store of `storage.py` and its public API -/

/-- A `UrlRecord` (`original_url`, `created_at`, `click_count`). -/
structure UrlRecord where
  original_url : String
  created_at : ℚ
  click_count : ℕ
  deriving Repr, DecidableEq

/-- The LRU capacity constant `_LRU_CAPACITY`. -/
def LRU_CAPACITY : ℕ := 1024

/-- The module state of `storage.py`: the authoritative `_store` and the
`_url_cache`. -/
structure StoreState where
  store : List (String × UrlRecord)
  cache : Cache
  deriving Repr, DecidableEq

/-- `save_url`: reject duplicate codes, otherwise create the record,
persist it and populate the cache.  `t` is `datetime.now()`. -/
def save_url (code url : String) (t : ℚ) (s : StoreState) :
    Except String (UrlRecord × StoreState) :=
  if (dictGet code s.store).isSome then .error "short code already exists"
  else
    let record : UrlRecord := ⟨url, t, 0⟩
    .ok (record, ⟨s.store ++ [(code, record)], cachePut LRU_CAPACITY code url s.cache⟩)

/-- `get_url`: plain authoritative lookup. -/
def get_url (code : String) (s : StoreState) : Option UrlRecord :=
  dictGet code s.store

/-- `get_original_url_cached`: cache hit returns the cached URL; cache
miss consults the store, populating the cache only on a store hit. -/
def get_original_url_cached (code : String) (s : StoreState) :
    Option String × StoreState :=
  let r := cacheGet code s.cache
  match r.1 with
  | some v => (some v, { s with cache := r.2 })
  | none =>
    match dictGet code s.store with
    | none => (none, { s with cache := r.2 })
    | some record =>
      (some record.original_url,
        { s with cache := cachePut LRU_CAPACITY code record.original_url r.2 })

/-- The store update performed by `increment_clicks`
(`_store[short_code]["click_count"] += 1`): bump the click count of the
record bound to `code`, leaving every other binding alone. -/
def bumpAt (code : String) (l : List (String × UrlRecord)) : List (String × UrlRecord) :=
  l.map (fun p =>
    if p.1 = code then (p.1, { p.2 with click_count := p.2.click_count + 1 }) else p)

/-- `increment_clicks`: raise on a missing code, otherwise bump the
record's `click_count` in the store (cache untouched). -/
def increment_clicks (code : String) (s : StoreState) : Except String StoreState :=
  if (dictGet code s.store).isSome then .ok { s with store := bumpAt code s.store }
  else .error "short code not found"

/-- `clear_store`: empty both maps. -/
def clear_store (_s : StoreState) : StoreState := ⟨[], []⟩

/-- One public-API call against the storage module. -/
inductive StoreOp where
  | save (code url : String) (t : ℚ)
  | getCached (code : String)
  | incr (code : String)
  | clear
  deriving Repr

/-- Apply one operation; a raised exception leaves the module state
unchanged (both raises happen before any mutation). -/
def applyOp (s : StoreState) : StoreOp → StoreState
  | .save code url t =>
    match save_url code url t s with
    | .ok (_, s') => s'
    | .error _ => s
  | .getCached code => (get_original_url_cached code s).2
  | .incr code =>
    match increment_clicks code s with
    | .ok s' => s'
    | .error _ => s
  | .clear => clear_store s

/-- Run a sequence of public-API calls from the initial (empty) module
state. -/
def runOps (ops : List StoreOp) : StoreState :=
  ops.foldl applyOp ⟨[], []⟩

/-- Cache-store consistency: every cached binding is backed by a store
record whose `original_url` is the cached value. -/
def cacheConsistent (s : StoreState) : Prop :=
  ∀ p ∈ s.cache, ∃ r, dictGet p.1 s.store = some r ∧ p.2 = r.original_url

lemma mem_cachePut (cap : ℕ) (k v : String) (c : Cache) (p : String × String)
    (hp : p ∈ cachePut cap k v c) : (p ∈ c ∧ p.1 ≠ k) ∨ p = (k, v) := by
  have hp1 : p ∈ eraseKey k c ++ [(k, v)] := by
    simp only [cachePut] at hp
    by_cases hcase : cap < (eraseKey k c ++ [(k, v)]).length
    · rw [if_pos hcase] at hp
      exact List.mem_of_mem_tail hp
    · rwa [if_neg hcase] at hp
  rcases List.mem_append.mp hp1 with hl | hr
  · exact Or.inl ((mem_eraseKey k c p).mp hl)
  · exact Or.inr (by simpa using hr)

lemma mem_cacheGet_snd (k : String) (c : Cache) (p : String × String)
    (hp : p ∈ (cacheGet k c).2) : p ∈ c := by
  rcases hc : dictGet k c with _ | v
  · simpa [cacheGet, hc] using hp
  · simp only [cacheGet, hc] at hp
    rcases List.mem_append.mp hp with hl | hr
    · exact ((mem_eraseKey k c p).mp hl).1
    · have : p = (k, v) := by simpa using hr
      exact this ▸ mem_of_dictGet k c v hc

lemma bumpAt_cons (code a : String) (v : UrlRecord) (tl : List (String × UrlRecord)) :
    bumpAt code ((a, v) :: tl) =
      (if a = code then (a, { v with click_count := v.click_count + 1 }) else (a, v)) ::
        bumpAt code tl := by
  simp only [bumpAt, List.map_cons]

lemma dictGet_bumpAt (code k : String) (l : List (String × UrlRecord)) :
    dictGet k (bumpAt code l) = (dictGet k l).map (fun r =>
      if k = code then { r with click_count := r.click_count + 1 } else r) := by
  induction l with
  | nil => rfl
  | cons hd tl ih =>
    obtain ⟨a, v⟩ := hd
    rw [bumpAt_cons]
    by_cases hak : a = k
    · subst hak
      by_cases hac : a = code
      · rw [if_pos hac]
        simp [dictGet, hac]
      · rw [if_neg hac]
        simp [dictGet, hac]
    · by_cases hac : a = code
      · rw [if_pos hac]
        simp only [dictGet, if_neg hak]
        exact ih
      · rw [if_neg hac]
        simp only [dictGet, if_neg hak]
        exact ih

lemma cacheConsistent_applyOp (s : StoreState) (op : StoreOp)
    (h : cacheConsistent s) : cacheConsistent (applyOp s op) := by
  cases op with
  | save code url t =>
    simp only [applyOp, save_url]
    rcases hex : dictGet code s.store with _ | r0
    · simp only [hex, Option.isSome_none, Bool.false_eq_true, if_false]
      intro p hp
      simp only at hp
      rcases mem_cachePut LRU_CAPACITY code url s.cache p hp with ⟨hpc, hpk⟩ | rfl
      · obtain ⟨r, hr1, hr2⟩ := h p hpc
        exact ⟨r, dictGet_append_of_some _ _ _ _ hr1, hr2⟩
      · refine ⟨⟨url, t, 0⟩, ?_, rfl⟩
        rw [dictGet_append_of_none _ _ _ hex]
        simp [dictGet]
    · simpa [hex] using h
  | getCached code =>
    simp only [applyOp, get_original_url_cached]
    rcases hc : dictGet code s.cache with _ | v
    · simp only [cacheGet, hc]
      rcases hst : dictGet code s.store with _ | record
      · simpa [hst] using h
      · simp only [hst]
        intro p hp
        simp only at hp
        rcases mem_cachePut LRU_CAPACITY code record.original_url s.cache p hp with
          ⟨hpc, _⟩ | rfl
        · exact h p hpc
        · exact ⟨record, hst, rfl⟩
    · simp only [cacheGet, hc]
      intro p hp
      simp only at hp
      rcases List.mem_append.mp hp with hl | hr
      · exact h p ((mem_eraseKey code s.cache p).mp hl).1
      · have hpv : p = (code, v) := by simpa using hr
        exact h p (hpv ▸ mem_of_dictGet code s.cache v hc)
  | incr code =>
    simp only [applyOp, increment_clicks]
    rcases hex : dictGet code s.store with _ | r0
    · simpa [hex] using h
    · simp only [hex, Option.isSome_some, if_true]
      intro p hp
      simp only at hp
      obtain ⟨r, hr1, hr2⟩ := h p hp
      refine ⟨if p.1 = code then { r with click_count := r.click_count + 1 } else r, ?_, ?_⟩
      · rw [dictGet_bumpAt, hr1]
        rfl
      · by_cases hpk : p.1 = code <;> simp [hpk, hr2]
  | clear =>
    intro p hp
    simp [applyOp, clear_store] at hp

lemma get_cached_absent (s : StoreState) (code : String) (h : cacheConsistent s)
    (habs : dictGet code s.store = none) :
    (get_original_url_cached code s).1 = none ∧
    (get_original_url_cached code s).2 = s := by
  have hcache : dictGet code s.cache = none := by
    rcases hc : dictGet code s.cache with _ | v
    · rfl
    · obtain ⟨r, hr1, _⟩ := h (code, v) (mem_of_dictGet code s.cache v hc)
      simp only at hr1
      rw [habs] at hr1
      cases hr1
  simp [get_original_url_cached, cacheGet, hcache, habs]

/-- C5: after any sequence of `save_url` / `get_original_url_cached` /
`increment_clicks` / `clear_store` calls from the empty module state,
every cache entry is backed by a store record whose `original_url` equals
the cached value; and a cached lookup of a code absent from the store
returns `None` without touching the state (negative results are never
cached). -/
theorem storage_cache_consistency (ops : List StoreOp) (code : String) :
    cacheConsistent (runOps ops) ∧
    (dictGet code (runOps ops).store = none →
      (get_original_url_cached code (runOps ops)).1 = none ∧
      (get_original_url_cached code (runOps ops)).2 = runOps ops) := by
  have hinv : ∀ (l : List StoreOp) (s : StoreState), cacheConsistent s →
      cacheConsistent (l.foldl applyOp s) := by
    intro l
    induction l with
    | nil => exact fun s hs => hs
    | cons op tl ih => exact fun s hs => ih _ (cacheConsistent_applyOp s op hs)
  have hrun : cacheConsistent (runOps ops) := by
    apply hinv
    intro p hp
    simp at hp
  exact ⟨hrun, fun habs => get_cached_absent _ _ hrun habs⟩

/-- Witness for C5: after saving one URL, looking up an absent code
returns `None` and the module state is untouched. -/
theorem storage_cache_consistency_witness :
    (get_original_url_cached "zzz" (runOps [StoreOp.save "abc" "xy" 0])).1 = none ∧
    (get_original_url_cached "zzz" (runOps [StoreOp.save "abc" "xy" 0])).2 =
      runOps [StoreOp.save "abc" "xy" 0] :=
  (storage_cache_consistency [StoreOp.save "abc" "xy" 0] "zzz").2 (by decide)

/-! ## The rate-limit middleware of `rate_limiter.py` -/

/-- Python `s.split(sep)` on the character list of `s`. -/
def splitChars (sep : Char) : List Char → List (List Char)
  | [] => [[]]
  | c :: rest =>
    let r := splitChars sep rest
    if c = sep then [] :: r
    else
      match r with
      | [] => [[c]]
      | h :: t => (c :: h) :: t

/-- Python `s.split(sep)` (always returns a non-empty list). -/
def pySplit (sep : Char) (s : String) : List String :=
  (splitChars sep s.toList).map String.mk

/-- The ASCII whitespace stripped by Python `str.strip()`. -/
def pyIsSpace (c : Char) : Bool :=
  c = ' ' || c = '\t' || c = '\n' || c = '\r' || c = '\x0b' || c = '\x0c'

/-- Python `s.strip()`: drop leading and trailing whitespace. -/
def pyStrip (s : String) : String :=
  String.mk (((s.toList.dropWhile pyIsSpace).reverse.dropWhile pyIsSpace).reverse)

/-- What `_get_client_ip` reads off the request: the `X-Forwarded-For`
header (if sent) and the direct peer address `request.client.host` (if
any). -/
structure RequestInfo where
  x_forwarded_for : Option String
  client : Option String
  deriving Repr, DecidableEq

/-- The fallback of `_get_client_ip` once the forwarded-for header is
absent or falsy: the peer address, else `"unknown"`. -/
def clientFallback (req : RequestInfo) : String :=
  match req.client with
  | some host => host
  | none => "unknown"

/-- `RateLimitMiddleware._get_client_ip`.  Note Python truthiness: an
*empty* `X-Forwarded-For` value falls through to the peer address. -/
def getClientIp (req : RequestInfo) : String :=
  match req.x_forwarded_for with
  | some f => if f = "" then clientFallback req else pyStrip ((pySplit ',' f).headD "")
  | none => clientFallback req

/-- Python `int()` applied to a float/rational: truncation toward zero. -/
def pyInt (q : ℚ) : ℤ :=
  if 0 ≤ q then ⌊q⌋ else ⌈q⌉

/-- State of `RateLimitMiddleware` (`_rate_limit`, `_window_seconds`, the
derived `_refill_rate = rate_limit / window_seconds`, and `_buckets`). -/
structure RateLimitMiddleware where
  rate_limit : ℤ
  window_seconds : ℚ
  refill_rate : ℚ
  buckets : List (String × TokenBucket)
  deriving Repr, DecidableEq

/-- `RateLimitMiddleware.__init__` (no buckets yet). -/
def RateLimitMiddleware.mkNew (rate_limit : ℤ) (window_seconds : ℚ) : RateLimitMiddleware :=
  ⟨rate_limit, window_seconds, (rate_limit : ℚ) / window_seconds, []⟩

/-- `_get_or_create_bucket`: return the existing bucket for `ip`, else
construct one with `capacity = rate_limit` and the derived refill rate
and store it (a `ValueError` from the constructor propagates). -/
def RateLimitMiddleware.getOrCreateBucket (m : RateLimitMiddleware) (ip : String)
    (now : ℚ) : Except String (TokenBucket × RateLimitMiddleware) :=
  match dictGet ip m.buckets with
  | some b => .ok (b, m)
  | none =>
    match TokenBucket.init (m.rate_limit : ℚ) m.refill_rate now with
    | .ok b => .ok (b, { m with buckets := m.buckets ++ [(ip, b)] })
    | .error e => .error e

/-- The JSON 429 response built by `_rate_limit_response`:
status code, `detail` body field, and the `Retry-After` header value. -/
structure JsonErrResponse where
  status_code : ℕ
  detail : String
  retry_after : String
  deriving Repr, DecidableEq

/-- `_rate_limit_response`: 429, fixed detail text, and
`Retry-After: str(int(window_seconds))`. -/
def RateLimitMiddleware.rateLimitResponse (m : RateLimitMiddleware) : JsonErrResponse :=
  ⟨429, "Rate limit exceeded. Try again later.", toString (pyInt m.window_seconds)⟩

/-- What one `__call__` does to the outside world: forward a non-HTTP
scope unchanged, invoke the wrapped app, short-circuit with a 429, or
propagate a constructor exception. -/
inductive CallOutcome where
  | passthrough
  | downstream
  | rejected (resp : JsonErrResponse)
  | raised (e : String)
  deriving Repr, DecidableEq

/-- Write the consumed bucket back under its key (Python mutates the
shared bucket object in place; keys are untouched). -/
def setBucket (l : List (String × TokenBucket)) (ip : String) (b : TokenBucket) :
    List (String × TokenBucket) :=
  l.map (fun p => if p.1 = ip then (p.1, b) else p)

/-- `RateLimitMiddleware.__call__` on one request arriving at monotonic
time `now`. -/
def RateLimitMiddleware.call (m : RateLimitMiddleware) (scope_type : String)
    (req : RequestInfo) (now : ℚ) : CallOutcome × RateLimitMiddleware :=
  if scope_type = "http" then
    match m.getOrCreateBucket (getClientIp req) now with
    | .error e => (.raised e, m)
    | .ok (b, m1) =>
      let r := b.consume 1 now
      let m2 := { m1 with buckets := setBucket m1.buckets (getClientIp req) r.2 }
      if r.1 then (.downstream, m2) else (.rejected m.rateLimitResponse, m2)
  else (.passthrough, m)

/-- C6 (amended): the client key is the trimmed first comma-separated
entry of `X-Forwarded-For` when that header is present *and non-empty*
(even when a peer address exists); otherwise the peer address; otherwise
`"unknown"`. -/
theorem client_ip_precedence (req : RequestInfo) (f host : String) :
    (req.x_forwarded_for = some f → f ≠ "" →
      getClientIp req = pyStrip ((pySplit ',' f).headD "")) ∧
    ((req.x_forwarded_for = none ∨ req.x_forwarded_for = some "") →
      req.client = some host → getClientIp req = host) ∧
    ((req.x_forwarded_for = none ∨ req.x_forwarded_for = some "") →
      req.client = none → getClientIp req = "unknown") := by
  refine ⟨?_, ?_, ?_⟩
  · intro hf hne
    simp [getClientIp, hf, hne]
  · intro hf hc
    rcases hf with hf | hf <;> simp [getClientIp, hf, clientFallback, hc]
  · intro hf hc
    rcases hf with hf | hf <;> simp [getClientIp, hf, clientFallback, hc]

/-- Counterexample to C6 as stated: with an empty (but present)
`X-Forwarded-For` header and peer `1.2.3.4`, the code returns the peer
address, not the trimmed first entry (`""`) of the header. -/
theorem client_ip_empty_header_counterexample :
    (RequestInfo.mk (some "") (some "1.2.3.4")).x_forwarded_for = some "" ∧
    getClientIp ⟨some "", some "1.2.3.4"⟩ = "1.2.3.4" ∧
    getClientIp ⟨some "", some "1.2.3.4"⟩ ≠ pyStrip ((pySplit ',' "").headD "") := by
  refine ⟨rfl, by decide, by decide⟩

/-- Witness for the amended C6: a multi-entry forwarded header wins over
the peer address; the peer address is used without a header; `"unknown"`
is used when neither exists. -/
theorem client_ip_precedence_witness :
    getClientIp ⟨some "9.9.9.9, 10.0.0.1", some "1.2.3.4"⟩ = "9.9.9.9" ∧
    getClientIp ⟨none, some "1.2.3.4"⟩ = "1.2.3.4" ∧
    getClientIp ⟨none, none⟩ = "unknown" := by
  have h1 := (client_ip_precedence ⟨some "9.9.9.9, 10.0.0.1", some "1.2.3.4"⟩
    "9.9.9.9, 10.0.0.1" "1.2.3.4").1 rfl (by decide)
  have h2 := (client_ip_precedence ⟨none, some "1.2.3.4"⟩ "" "1.2.3.4").2.1
    (Or.inl rfl) rfl
  have h3 := (client_ip_precedence ⟨none, none⟩ "" "x").2.2 (Or.inl rfl) rfl
  exact ⟨h1.trans (by decide), h2, h3⟩

/-- C7: when the client's bucket denies `consume(1.0)`, `__call__`
answers 429 with the fixed JSON detail and `Retry-After =
int(window_seconds)` and never invokes the wrapped app; when it grants,
the wrapped app is invoked. -/
theorem middleware_rate_limit_gate (m : RateLimitMiddleware) (req : RequestInfo)
    (now : ℚ) (b : TokenBucket) (m1 : RateLimitMiddleware)
    (h : m.getOrCreateBucket (getClientIp req) now = .ok (b, m1)) :
    ((b.consume 1 now).1 = false →
      (m.call "http" req now).1 = .rejected
        ⟨429, "Rate limit exceeded. Try again later.", toString (pyInt m.window_seconds)⟩) ∧
    ((b.consume 1 now).1 = true → (m.call "http" req now).1 = .downstream) := by
  constructor <;> intro hc <;>
    simp [RateLimitMiddleware.call, h, hc, RateLimitMiddleware.rateLimitResponse]

/-- Witness for C7: a drained bucket for `1.2.3.4` yields the concrete
429 response with `Retry-After: 60`; a full bucket lets the request
through. -/
theorem middleware_rate_limit_gate_witness :
    (RateLimitMiddleware.call ⟨100, 60, 2, [("1.2.3.4", ⟨100, 2, 0, 0⟩)]⟩
        "http" ⟨none, some "1.2.3.4"⟩ 0).1 =
      CallOutcome.rejected ⟨429, "Rate limit exceeded. Try again later.", "60"⟩ ∧
    (RateLimitMiddleware.call ⟨100, 60, 2, [("1.2.3.4", ⟨100, 2, 100, 0⟩)]⟩
        "http" ⟨none, some "1.2.3.4"⟩ 0).1 = CallOutcome.downstream := by
  have h1 := (middleware_rate_limit_gate ⟨100, 60, 2, [("1.2.3.4", ⟨100, 2, 0, 0⟩)]⟩
    ⟨none, some "1.2.3.4"⟩ 0 ⟨100, 2, 0, 0⟩ ⟨100, 60, 2, [("1.2.3.4", ⟨100, 2, 0, 0⟩)]⟩
    (by simp [RateLimitMiddleware.getOrCreateBucket, dictGet, getClientIp, clientFallback])).1 (by norm_num [TokenBucket.consume, TokenBucket.refill, min_def])
  have h2 := (middleware_rate_limit_gate ⟨100, 60, 2, [("1.2.3.4", ⟨100, 2, 100, 0⟩)]⟩
    ⟨none, some "1.2.3.4"⟩ 0 ⟨100, 2, 100, 0⟩ ⟨100, 60, 2, [("1.2.3.4", ⟨100, 2, 100, 0⟩)]⟩
    (by simp [RateLimitMiddleware.getOrCreateBucket, dictGet, getClientIp, clientFallback])).2 (by norm_num [TokenBucket.consume, TokenBucket.refill, min_def])
  exact ⟨h1.trans (by decide), h2⟩

lemma dictGet_append_singleton_ne {α : Type} (l : List (String × α)) (ip ip2 : String)
    (x : α) (h : ip2 ≠ ip) : dictGet ip2 (l ++ [(ip, x)]) = dictGet ip2 l := by
  cases hd : dictGet ip2 l with
  | some v => exact dictGet_append_of_some _ _ _ _ hd
  | none =>
    have h1 : dictGet ip2 (l ++ [(ip, x)]) = dictGet ip2 [(ip, x)] :=
      dictGet_append_of_none _ _ _ hd
    have h2 : dictGet ip2 [(ip, x)] = (none : Option α) := by
      simp [dictGet, Ne.symm h]
    rw [h1, h2]

lemma dictGet_setBucket_ne (l : List (String × TokenBucket)) (ip ip2 : String)
    (b : TokenBucket) (h : ip2 ≠ ip) : dictGet ip2 (setBucket l ip b) = dictGet ip2 l := by
  induction l with
  | nil => rfl
  | cons hd tl ih =>
    obtain ⟨a, v⟩ := hd
    simp only [setBucket, List.map_cons]
    by_cases hai : a = ip
    · rw [if_pos hai]
      have ha2 : a ≠ ip2 := fun hh => h (hh ▸ hai)
      simp only [dictGet, if_neg ha2]
      exact ih
    · rw [if_neg hai]
      by_cases ha2 : a = ip2
      · simp [dictGet, ha2]
      · simp only [dictGet, if_neg ha2]
        exact ih

/-- C9: the registry keeps exactly one bucket per client key —
`getOrCreateBucket` on an existing key returns that same bucket and
leaves the registry unchanged — and a full request from client `ip`
(including one that drains `ip`'s bucket) leaves every other key's
bucket untouched. -/
theorem registry_per_client_isolation (m : RateLimitMiddleware) (ip ip2 : String)
    (now : ℚ) (b : TokenBucket) (req : RequestInfo) :
    (dictGet ip m.buckets = some b → m.getOrCreateBucket ip now = .ok (b, m)) ∧
    (getClientIp req = ip → ip2 ≠ ip →
      dictGet ip2 ((m.call "http" req now).2).buckets = dictGet ip2 m.buckets) := by
  constructor
  · intro h
    simp [RateLimitMiddleware.getOrCreateBucket, h]
  · intro hip hne
    subst hip
    simp only [RateLimitMiddleware.call, if_pos rfl]
    cases hg : m.getOrCreateBucket (getClientIp req) now with
    | error e => rfl
    | ok pr =>
      obtain ⟨b1, m1⟩ := pr
      have hm1 : dictGet ip2 m1.buckets = dictGet ip2 m.buckets := by
        simp only [RateLimitMiddleware.getOrCreateBucket] at hg
        cases hd : dictGet (getClientIp req) m.buckets with
        | some b0 =>
          rw [hd] at hg
          cases hg
          rfl
        | none =>
          rw [hd] at hg
          cases hinit : TokenBucket.init (m.rate_limit : ℚ) m.refill_rate now with
          | error e =>
            rw [hinit] at hg
            cases hg
          | ok nb =>
            rw [hinit] at hg
            cases hg
            exact dictGet_append_singleton_ne m.buckets (getClientIp req) ip2 _ hne
      have hset : dictGet ip2 (setBucket m1.buckets (getClientIp req)
          (b1.consume 1 now).2) = dictGet ip2 m1.buckets :=
        dictGet_setBucket_ne m1.buckets (getClientIp req) ip2 _ hne
      by_cases hr : (b1.consume 1 now).1
      · simp only [hr, if_true]
        exact hset.trans hm1
      · simp only [hr, if_false]
        exact hset.trans hm1

/-- Witness for C9: with buckets for `1.2.3.4` (full) and `9.9.9.9`
(42 tokens), a request from `1.2.3.4` leaves `9.9.9.9`'s bucket exactly
as it was, and `getOrCreateBucket` returns the existing bucket without
touching the registry. -/
theorem registry_per_client_isolation_witness :
    (RateLimitMiddleware.getOrCreateBucket
        ⟨100, 60, 2, [("1.2.3.4", ⟨100, 2, 100, 0⟩), ("9.9.9.9", ⟨100, 2, 42, 0⟩)]⟩
        "1.2.3.4" 0 =
      .ok (⟨100, 2, 100, 0⟩,
        ⟨100, 60, 2, [("1.2.3.4", ⟨100, 2, 100, 0⟩), ("9.9.9.9", ⟨100, 2, 42, 0⟩)]⟩)) ∧
    dictGet "9.9.9.9"
        ((RateLimitMiddleware.call
          ⟨100, 60, 2, [("1.2.3.4", ⟨100, 2, 100, 0⟩), ("9.9.9.9", ⟨100, 2, 42, 0⟩)]⟩
          "http" ⟨none, some "1.2.3.4"⟩ 0).2).buckets =
      some ⟨100, 2, 42, 0⟩ := by
  have h := registry_per_client_isolation
    ⟨100, 60, 2, [("1.2.3.4", ⟨100, 2, 100, 0⟩), ("9.9.9.9", ⟨100, 2, 42, 0⟩)]⟩
    "1.2.3.4" "9.9.9.9" 0 ⟨100, 2, 100, 0⟩ ⟨none, some "1.2.3.4"⟩
  refine ⟨h.1 (by decide), ?_⟩
  have h2 := h.2 (by decide) (by decide)
  exact h2.trans (by decide)
